import Mathlib

/-!
Verification of the text-chunking and prompt-assembly core of the Local-LLM
repository (src/utils/textProcessing.js), against the specification claims
about chunking, context formatting, prompt building and text cleaning.

Strings are modelled as lists of Unicode code points (`List Char`), matching
the view the source takes with Array.from(text).  JavaScript regular-expression
details that the source relies on are modelled explicitly: the pattern atom
"." used on line 17 of textProcessing.js does NOT match the four ECMAScript
line terminators, and the whitespace class used by the replace calls and by
trim() in cleanText is the ECMAScript WhiteSpace/LineTerminator set.

Loops and regex scans are written with an explicit iteration budget ("fuel")
so that every definition is structurally recursive and kernel-reducible; the
budget is always instantiated with the length of the list being consumed,
which the accompanying lemmas show is never exhausted in the regimes where the
JavaScript code itself terminates (every scan consumes at least one code point
per step).
-/

/-- The four ECMAScript line-terminator code points, which the regular
expression atom "." (as in the chunking pattern on line 17 of
textProcessing.js) never matches: LF, CR, LINE SEPARATOR, PARAGRAPH
SEPARATOR. -/
def isLineTerm (c : Char) : Bool :=
  c = '\n' || c = '\r' || c = ' ' || c = ' '

/-- The ECMAScript whitespace class (the one matched by the \s escape and
removed by String.prototype.trim): tab, line feed, vertical tab, form feed,
carriage return, space, NBSP, Ogham space mark, the U+2000..U+200A spaces,
line/paragraph separators, narrow NBSP, medium mathematical space, ideographic
space, BOM. -/
def isWs (c : Char) : Bool :=
  c = '\t' || c = '\n' || c = '\x0b' || c = '\x0c' || c = '\r' || c = ' ' ||
  c = ' ' || c = ' ' ||
  (0x2000 ≤ c.toNat && c.toNat ≤ 0x200a) ||
  c = ' ' || c = ' ' || c = ' ' || c = ' ' ||
  c = '　' || c = '﻿'

/-- Scanner for lines 17-18 of textProcessing.js:
text.match(new RegExp(".{1,chunkSize}", "g")) with a null result defaulting to
the empty list.  Global matching scans left to right; at a position holding a
line terminator no match can start (the atom "." cannot consume it), so the
scanner advances one step; at any other position the greedy quantifier takes
as many consecutive non-terminator steps as possible, up to n.

Unit of consumption: the pattern is built WITHOUT the u flag, so the real
atom "." consumes one UTF-16 code unit.  This scanner advances by code
points, which coincides with the code-unit scan exactly when every code point
of the text lies in the basic multilingual plane (one code unit each; all
four line terminators are BMP).  A supplementary-plane code point occupies
two code units and is split in half by the real regex, so every theorem below
whose truth depends on match counts or match boundaries (the count formula
and the single-chunk property) carries a BMP hypothesis on the text; the
properties that survive arbitrary boundaries (concatenation of the matches,
match sizes between 1 and n) hold of the program on the full domain.

Faithful for n ≥ 1 (for n = 0 the RegExp constructor itself throws, see
chunkTextE).  Every step consumes at least one code point, so fuel equal to
the length of the text is never exhausted. -/
def regexGo (n : Nat) : Nat → List Char → List (List Char)
  | 0, _ => []
  | _ + 1, [] => []
  | fuel + 1, c :: rest =>
    if isLineTerm c then regexGo n fuel rest
    else
      (c :: (rest.takeWhile (fun x => !isLineTerm x)).take (n - 1)) ::
        regexGo n fuel
          (rest.drop ((rest.takeWhile (fun x => !isLineTerm x)).take (n - 1)).length)

/-- The full match list of lines 17-18 of textProcessing.js. -/
def regexMatches (n : Nat) (l : List Char) : List (List Char) :=
  regexGo n l.length l

/-- The manual overlapping-chunk loop, lines 25-37 of textProcessing.js:

  for (let i = 0; i < textArray.length; i += (chunkSize - overlap)) \x7b
    const end = Math.min(i + chunkSize, textArray.length);
    const chunk = textArray.slice(i, end).join("");
    if (chunk.length > 0) chunks.push(chunk);
    if (end === textArray.length) break;
  \x7d

The iteration at index i sees the suffix t = textArray.slice(i) of the text;
the slice textArray.slice(i, end) is t.take S, and advancing the index by
chunkSize - overlap drops that many code points from the suffix.  The test
end === textArray.length is t.length ≤ S, and the break happens after the
push.  Fuel equal to the length of the text is never exhausted whenever the
step S - O is positive, which is the only regime in which the JavaScript loop
terminates at all for texts longer than one window (see chunkTextE). -/
def overlapChunks (S O : Nat) : Nat → List Char → List (List Char)
  | 0, _ => []
  | _ + 1, [] => []
  | fuel + 1, c :: rest =>
    if (c :: rest).length ≤ S then
      (if ((c :: rest).take S).isEmpty then [] else [(c :: rest).take S])
    else
      (if ((c :: rest).take S).isEmpty then [] else [(c :: rest).take S]) ++
        overlapChunks S O fuel ((c :: rest).drop (S - O))

/-- chunkText(text, chunkSize = 300, overlap = 30), lines 10-40 of
textProcessing.js, for string input and a terminating configuration
(chunkSize ≥ 1; and if the loop is reached, overlap < chunkSize).
Line 11 returns the empty list for empty text; lines 20-22 return the regex
matches when overlap === 0 or there is exactly one match; otherwise the manual
loop runs and line 39 falls back to the matches if the loop pushed nothing.
The loop side works on Array.from(text), i.e. genuine code points; the regex
side counts UTF-16 code units (see the regexGo comment for the fidelity
domain of the match boundaries). -/
def chunkText (l : List Char) (chunkSize : Nat := 300) (overlap : Nat := 30) :
    List (List Char) :=
  if l.isEmpty then []
  else
    let ms := regexMatches chunkSize l
    if overlap = 0 || ms.length = 1 then ms
    else
      let chunks := overlapChunks chunkSize overlap l.length l
      if chunks.isEmpty then ms else chunks

/-- The one exception the source can actually raise: for chunkSize = 0 the
constructor call new RegExp(".{1,0}") on line 17 throws a SyntaxError, the
quantifier bounds being out of order.  No InvalidArgument error class exists
anywhere in the repository. -/
inductive JsError where
  | invalidRegExp
deriving DecidableEq

/-- chunkText with its full observable behavior: some (ok v) for a normal
return of v, some (error e) for a thrown exception, none when the call never
returns.  Traced from lines 10-40 of textProcessing.js:
* empty text returns the empty list before the regex is ever built (line 11);
* chunkSize = 0 makes the RegExp constructor throw (line 17);
* overlap = 0 or a single regex match returns the matches (lines 20-22);
* 0 < overlap < chunkSize: the loop of lines 25-37 runs and terminates;
* overlap ≥ chunkSize: the loop step chunkSize - overlap is not positive, so
  the index never advances beyond 0.  If the whole text fits in one window
  (length ≤ chunkSize) the very first slice reaches the end of the text, so
  that one chunk is pushed and the loop breaks; otherwise end never equals
  textArray.length while the index stays below the length, so the loop runs
  forever and the call does not return. -/
def chunkTextE (l : List Char) (chunkSize overlap : Nat) :
    Option (Except JsError (List (List Char))) :=
  if l.isEmpty then some (Except.ok [])
  else if chunkSize = 0 then some (Except.error JsError.invalidRegExp)
  else
    let ms := regexMatches chunkSize l
    if overlap = 0 || ms.length = 1 then some (Except.ok ms)
    else if overlap < chunkSize then
      some (Except.ok
        (let chunks := overlapChunks chunkSize overlap l.length l
         if chunks.isEmpty then ms else chunks))
    else if l.length ≤ chunkSize then some (Except.ok [l.take chunkSize])
    else none

/-- De-overlapping in the sense of claim C1 and spec §8: keep the first chunk
whole, drop the first O code points of every later chunk, concatenate. -/
def deOverlap (O : Nat) : List (List Char) → List Char
  | [] => []
  | c :: cs => c ++ (cs.map (List.drop O)).flatten

/-- Ceiling division on naturals (for positive divisor), used to state the
chunk-count formula of spec §3. -/
def cdiv (a b : Nat) : Nat := (a + b - 1) / b

/-- A document as consumed by chunkDocuments (line 47): an id and its text. -/
structure Document where
  id : String
  content : List Char
deriving DecidableEq

/-- A chunk record as produced by lines 54-59 of textProcessing.js. -/
structure ChunkRec where
  id : String
  content : List Char
  sourceDoc : String
  chunkIdx : Nat
deriving DecidableEq

/-- The inner loop over chunk indices, lines 53-60: records for the chunks of
one document, the first one carrying index i. -/
def chunkRecords (docId : String) (i : Nat) : List (List Char) → List ChunkRec
  | [] => []
  | c :: cs =>
    { id := docId ++ "_" ++ toString i, content := c,
      sourceDoc := docId, chunkIdx := i } :: chunkRecords docId (i + 1) cs

/-- chunkDocuments(documents), lines 47-64: chunk every document with the
default configuration (the call on line 51 is chunkText(doc.content), so
chunkSize 300 and overlap 30 apply) and emit the records in document order
then chunk order. -/
def chunkDocuments (docs : List Document) : List ChunkRec :=
  docs.flatMap fun d => chunkRecords d.id 0 (chunkText d.content)

/-- A retrieved item as consumed by formatContext (line 71); sourceDoc is none
when the field is absent. -/
structure RetrievedDoc where
  content : String
  sourceDoc : Option String
deriving DecidableEq

/-- The expression doc.sourceDoc || "unknown" on line 75: an absent field is
undefined and the empty string is falsy, so both render as "unknown". -/
def sourceLabel (d : RetrievedDoc) : String :=
  match d.sourceDoc with
  | none => "unknown"
  | some s => if s = "" then "unknown" else s

/-- The template block built for the item at 0-based position i by the arrow
function on lines 74-75 of textProcessing.js. -/
def contextBlock (i : Nat) (d : RetrievedDoc) : String :=
  "[Document " ++ toString (i + 1) ++ "]\n" ++ d.content ++
    "\n[Source: " ++ sourceLabel d ++ "]"

/-- retrievedDocs.map with the position argument, lines 72-76: the list of
blocks, i being the position of the first element. -/
def formatBlocks (i : Nat) : List RetrievedDoc → List String
  | [] => []
  | d :: ds => contextBlock i d :: formatBlocks (i + 1) ds

/-- formatContext(retrievedDocs), lines 71-78: the blocks joined with a blank
line. -/
def formatContext (docs : List RetrievedDoc) : String :=
  String.intercalate ("\n\n") (formatBlocks 0 docs)

/-- buildRAGPrompt(query, context), lines 86-95 of textProcessing.js: the
fixed instruction template with the context and the query interpolated. -/
def buildRAGPrompt (query context : String) : String :=
  "You are a helpful assistant. Use the following context to answer the user\x27s question. If you don\x27t know the answer based on the context, say so.\n\nContext:\n"
    ++ context ++ "\n\nQuestion: " ++ query ++ "\n\nAnswer:"

/-- text.replace with the global pattern \s+ and replacement " " (line 105 of
textProcessing.js): every maximal run of whitespace becomes a single space.
The quantifier is greedy and matching is global, so each match is a maximal
whitespace run; the boolean argument records whether the scanner is currently
inside an already-replaced run (in which case further whitespace belongs to
the same match and produces no further output). -/
def replWsGo : Bool → List Char → List Char
  | _, [] => []
  | inRun, c :: rest =>
    if isWs c then
      if inRun then replWsGo true rest
      else ' ' :: replWsGo true rest
    else c :: replWsGo false rest

/-- Line 105 of textProcessing.js, starting outside any whitespace run. -/
def replWs (l : List Char) : List Char :=
  replWsGo false l

/-- Helper for replNl: the part of a whitespace run after its last line
feed. -/
def afterLastNl (run : List Char) : List Char :=
  (run.reverse.takeWhile (fun c => !(c = '\n' : Bool))).reverse

/-- text.replace with the global pattern of a line feed, then \s*, then a line
feed, and replacement "\n" (line 106 of textProcessing.js).  A match must
start at a line feed; the greedy \s* must leave a final line feed, so with
backtracking a match spans from a line feed through the LAST line feed of the
maximal whitespace run starting there, and is replaced by a single line feed.
After a failed start the scanner advances one code point; scanning resumes
after a replaced match (the remainder of the run contains no line feed, so no
match can start inside it and those code points are copied through).  Every
step consumes at least one code point, so fuel equal to the length of the
input is never exhausted. -/
def replNlGo : Nat → List Char → List Char
  | 0, _ => []
  | _ + 1, [] => []
  | fuel + 1, c :: rest =>
    if c = '\n' then
      if '\n' ∈ rest.takeWhile isWs then
        '\n' :: (afterLastNl (rest.takeWhile isWs) ++
          replNlGo fuel (rest.dropWhile isWs))
      else '\n' :: replNlGo fuel rest
    else c :: replNlGo fuel rest

/-- Line 106 of textProcessing.js. -/
def replNl (l : List Char) : List Char :=
  replNlGo l.length l

/-- String.prototype.trim (line 107): strip leading and trailing ECMAScript
whitespace. -/
def trimBoth (l : List Char) : List Char :=
  ((l.dropWhile isWs).reverse.dropWhile isWs).reverse

/-- cleanText(text), lines 102-108 of textProcessing.js, for string input:
empty text is falsy and returns the empty string at line 103; otherwise
collapse whitespace runs, collapse blank lines, trim. -/
def cleanText (l : List Char) : List Char :=
  if l.isEmpty then []
  else trimBoth (replNl (replWs l))

/-! ### Arithmetic helper lemmas for the ceiling division -/

lemma cdiv_eq_one {a b : Nat} (h1 : 1 ≤ a) (h2 : a ≤ b) : cdiv a b = 1 := by
  unfold cdiv
  apply Nat.div_eq_of_lt_le
  · omega
  · omega

lemma cdiv_add_right {a b : Nat} (hb : 0 < b) : cdiv (a + b) b = cdiv a b + 1 := by
  unfold cdiv
  have h : a + b + b - 1 = (a + b - 1) + b := by omega
  rw [h, Nat.add_div_right _ hb]

lemma cdiv_zero {b : Nat} : cdiv 0 b = 0 := by
  unfold cdiv
  rcases Nat.eq_zero_or_pos b with h | h
  · subst h
    rfl
  · exact Nat.div_eq_of_lt (by omega)

/-- The text splits at the length of its own take: the drop count produced by
the regex scanner step. -/
lemma take_append_drop_len (m : Nat) (l : List Char) :
    l.take m ++ l.drop ((l.take m).length) = l := by
  rw [List.length_take]
  rcases le_total m l.length with h | h
  · rw [Nat.min_eq_left h, List.take_append_drop]
  · rw [Nat.min_eq_right h, List.take_of_length_le h, List.drop_length, List.append_nil]

lemma le_of_cdiv_eq_one {a b : Nat} (hb : 0 < b) (h : cdiv a b = 1) : a ≤ b := by
  by_contra hab
  have h2 : 2 ≤ cdiv a b := by
    unfold cdiv
    rw [Nat.le_div_iff_mul_le hb]
    omega
  omega

lemma one_le_cdiv {a b : Nat} (ha : 1 ≤ a) (hb : 0 < b) : 1 ≤ cdiv a b := by
  unfold cdiv
  rw [Nat.le_div_iff_mul_le hb]
  omega

/-! ### Lemmas about the regex scanner -/

/-- On line-terminator-free text the regex matches concatenate back to the
text: the scanner skips nothing. -/
lemma regexGo_flatten (n : Nat) :
    ∀ fuel (l : List Char), l.length ≤ fuel → (∀ c ∈ l, isLineTerm c = false) →
      (regexGo n fuel l).flatten = l := by
  intro fuel
  induction fuel with
  | zero =>
    intro l hl _
    have : l = [] := List.eq_nil_of_length_eq_zero (by omega)
    subst this
    rfl
  | succ fuel ih =>
    intro l hl hfree
    match l with
    | [] => rfl
    | c :: rest =>
      have hc : isLineTerm c = false := hfree c (by simp)
      have hrest : ∀ x ∈ rest, isLineTerm x = false := fun x hx => hfree x (by simp [hx])
      have htw : rest.takeWhile (fun x => !isLineTerm x) = rest :=
        List.takeWhile_eq_self_iff.2 (fun x hx => by simp [hrest x hx])
      simp only [regexGo, hc, Bool.false_eq_true, if_false, htw]
      have hdrop : (rest.drop ((rest.take (n - 1)).length)).length ≤ fuel := by
        simp at hl ⊢
        omega
      have hdropfree : ∀ x ∈ rest.drop ((rest.take (n - 1)).length), isLineTerm x = false :=
        fun x hx => hrest x (List.mem_of_mem_drop hx)
      rw [List.flatten_cons, ih _ hdrop hdropfree]
      rw [List.cons_append, take_append_drop_len]

/-- On line-terminator-free text the number of regex matches is the ceiling of
length over window size. -/
lemma regexGo_length (n : Nat) (hn : 0 < n) :
    ∀ fuel (l : List Char), l.length ≤ fuel → (∀ c ∈ l, isLineTerm c = false) →
      (regexGo n fuel l).length = cdiv l.length n := by
  intro fuel
  induction fuel with
  | zero =>
    intro l hl _
    have : l = [] := List.eq_nil_of_length_eq_zero (by omega)
    subst this
    simp [regexGo, cdiv_zero]
  | succ fuel ih =>
    intro l hl hfree
    match l with
    | [] => simp [regexGo, cdiv_zero]
    | c :: rest =>
      have hc : isLineTerm c = false := hfree c (by simp)
      have hrest : ∀ x ∈ rest, isLineTerm x = false := fun x hx => hfree x (by simp [hx])
      have htw : rest.takeWhile (fun x => !isLineTerm x) = rest :=
        List.takeWhile_eq_self_iff.2 (fun x hx => by simp [hrest x hx])
      simp only [regexGo, hc, Bool.false_eq_true, if_false, htw]
      by_cases hsmall : rest.length ≤ n - 1
      · have htake : rest.take (n - 1) = rest := List.take_of_length_le hsmall
        have hdrop : rest.drop ((rest.take (n - 1)).length) = [] := by
          rw [htake]
          exact List.drop_eq_nil_of_le (le_refl _)
        rw [hdrop]
        have hnil : regexGo n fuel [] = [] := by cases fuel <;> rfl
        rw [hnil]
        simp only [List.length_cons, List.length_nil]
        rw [cdiv_eq_one (by omega) (by omega)]
      · have hlen : ((rest.take (n - 1)).length) = n - 1 := by
          simp
          omega
        have hdl : (rest.drop ((rest.take (n - 1)).length)).length ≤ fuel := by
          simp at hl ⊢
          omega
        have hdropfree : ∀ x ∈ rest.drop ((rest.take (n - 1)).length), isLineTerm x = false :=
          fun x hx => hrest x (List.mem_of_mem_drop hx)
        rw [List.length_cons, ih _ hdl hdropfree]
        simp only [List.length_drop, hlen, List.length_cons]
        have hsplit : (rest.length + 1 : Nat) = (rest.length - (n - 1)) + n := by omega
        rw [hsplit, cdiv_add_right hn]

/-- If line-terminator-free text fits in a single window it forms exactly one
match, the whole text. -/
lemma regexGo_single (n : Nat) :
    ∀ fuel (l : List Char), l.length ≤ fuel → (∀ c ∈ l, isLineTerm c = false) →
      l ≠ [] → l.length ≤ n → regexGo n fuel l = [l] := by
  intro fuel l hl hfree hne hlen
  match fuel, l with
  | 0, l =>
    exact absurd (List.eq_nil_of_length_eq_zero (by omega)) hne
  | fuel + 1, c :: rest =>
    have hc : isLineTerm c = false := hfree c (by simp)
    have hrest : ∀ x ∈ rest, isLineTerm x = false := fun x hx => hfree x (by simp [hx])
    have htw : rest.takeWhile (fun x => !isLineTerm x) = rest :=
      List.takeWhile_eq_self_iff.2 (fun x hx => by simp [hrest x hx])
    simp only [regexGo, hc, Bool.false_eq_true, if_false, htw]
    have hsmall : rest.length ≤ n - 1 := by simp at hlen; omega
    have htake : rest.take (n - 1) = rest := List.take_of_length_le hsmall
    rw [htake, List.drop_length]
    have hnil : regexGo n fuel [] = [] := by cases fuel <;> rfl
    rw [hnil]

/-- Every regex match is nonempty and no longer than the window (any text,
window size at least 1). -/
lemma regexGo_mem (n : Nat) (hn : 0 < n) :
    ∀ fuel (l : List Char) (p : List Char), p ∈ regexGo n fuel l →
      p ≠ [] ∧ p.length ≤ n := by
  intro fuel
  induction fuel with
  | zero => intro l p hp; simp [regexGo] at hp
  | succ fuel ih =>
    intro l p hp
    match l with
    | [] => simp [regexGo] at hp
    | c :: rest =>
      by_cases hc : isLineTerm c
      · exact ih rest p (by simpa [regexGo, hc] using hp)
      · simp only [regexGo, hc, Bool.false_eq_true, if_false, List.mem_cons] at hp
        rcases hp with hp | hp
        · subst hp
          refine ⟨by simp, ?_⟩
          simp
          omega
        · exact ih _ p hp

/-! ### Lemmas about the overlapping-chunk loop -/

lemma take_cons_isEmpty {S : Nat} (hS : 0 < S) (c : Char) (rest : List Char) :
    ((c :: rest).take S).isEmpty = false := by
  cases S with
  | zero => omega
  | succ S => simp [List.take_succ_cons]

/-- The loop always pushes its first slice first: for nonempty input the chunk
list starts with the first window. -/
lemma overlapChunks_cons {S O : Nat} (hS : 0 < S) (fuel : Nat) (t : List Char)
    (ht : t ≠ []) (hf : 1 ≤ fuel) :
    ∃ cs, overlapChunks S O fuel t = t.take S :: cs := by
  match fuel, t with
  | fuel + 1, c :: rest =>
    simp only [overlapChunks, take_cons_isEmpty hS, Bool.false_eq_true, if_false]
    by_cases h : (c :: rest).length ≤ S
    · rw [if_pos h]
      exact ⟨[], rfl⟩
    · rw [if_neg h]
      exact ⟨_, List.singleton_append⟩

/-- Round-trip property of the loop: prepending the first O code points, the
chunk list with the first O code points dropped from EVERY chunk concatenates
back to the input.  (The first chunk starts at position 0, so its first O code
points are the first O code points of the text.) -/
lemma overlapChunks_take_flatten {S O : Nat} (hO : O < S) :
    ∀ fuel (t : List Char), t ≠ [] → t.length ≤ fuel →
      t.take O ++ ((overlapChunks S O fuel t).map (List.drop O)).flatten = t := by
  have hS : 0 < S := Nat.lt_of_le_of_lt (Nat.zero_le O) hO
  intro fuel
  induction fuel with
  | zero =>
    intro t ht hf
    exact absurd (List.eq_nil_of_length_eq_zero (by omega)) ht
  | succ fuel ih =>
    intro t ht hf
    match t with
    | c :: rest =>
      simp only [overlapChunks, take_cons_isEmpty hS, Bool.false_eq_true, if_false]
      by_cases hle : (c :: rest).length ≤ S
      · rw [if_pos hle, List.take_of_length_le hle]
        simp only [List.map_cons, List.map_nil, List.flatten_cons, List.flatten_nil,
          List.append_nil]
        exact List.take_append_drop O _
      · rw [if_neg hle]
        rw [List.singleton_append, List.map_cons, List.flatten_cons]
        have hlen : (c :: rest).length = rest.length + 1 := by simp
        have ht'len : ((c :: rest).drop (S - O)).length = (c :: rest).length - (S - O) := by
          simp
        have hlt : S < (c :: rest).length := by omega
        have ht'ne : (c :: rest).drop (S - O) ≠ [] := by
          apply List.ne_nil_of_length_pos
          rw [ht'len]
          omega
        have ht'f : ((c :: rest).drop (S - O)).length ≤ fuel := by
          rw [ht'len]
          simp at hf ⊢
          omega
        have hIH := ih _ ht'ne ht'f
        have hF : ((overlapChunks S O fuel ((c :: rest).drop (S - O))).map
            (List.drop O)).flatten = ((c :: rest).drop (S - O)).drop O := by
          have h2 : ((c :: rest).drop (S - O)).take O ++
              ((overlapChunks S O fuel ((c :: rest).drop (S - O))).map
                (List.drop O)).flatten =
              ((c :: rest).drop (S - O)).take O ++ ((c :: rest).drop (S - O)).drop O := by
            rw [hIH, List.take_append_drop]
          exact List.append_cancel_left h2
        rw [hF, List.drop_drop]
        have hOS : S - O + O = S := by omega
        rw [hOS, List.drop_take, ← List.append_assoc]
        have htakeS : (c :: rest).take O ++ ((c :: rest).drop O).take (S - O)
            = (c :: rest).take S := by
          have h : O + (S - O) = S := by omega
          conv_rhs => rw [← h]
          rw [List.take_add]
        rw [htakeS, List.take_append_drop]

/-- Chunk count of the loop: the ceiling formula of spec §3 for the O > 0
regime. -/
lemma overlapChunks_length {S O : Nat} (hO : O < S) :
    ∀ fuel (t : List Char), t ≠ [] → t.length ≤ fuel →
      (overlapChunks S O fuel t).length = cdiv (max (t.length - O) 1) (S - O) := by
  have hS : 0 < S := Nat.lt_of_le_of_lt (Nat.zero_le O) hO
  intro fuel
  induction fuel with
  | zero =>
    intro t ht hf
    exact absurd (List.eq_nil_of_length_eq_zero (by omega)) ht
  | succ fuel ih =>
    intro t ht hf
    match t with
    | c :: rest =>
      simp only [overlapChunks, take_cons_isEmpty hS, Bool.false_eq_true, if_false]
      by_cases hle : (c :: rest).length ≤ S
      · rw [if_pos hle]
        have hmax : max ((c :: rest).length - O) 1 ≤ S - O := by
          apply Nat.max_le.mpr
          constructor <;> (simp at hle ⊢; omega)
        rw [List.length_cons, List.length_nil,
          cdiv_eq_one (Nat.le_max_right _ _) hmax]
      · rw [if_neg hle]
        have ht'len : ((c :: rest).drop (S - O)).length = (c :: rest).length - (S - O) := by
          simp
        have hlt : S < (c :: rest).length := by omega
        have ht'ne : (c :: rest).drop (S - O) ≠ [] := by
          apply List.ne_nil_of_length_pos
          rw [ht'len]
          omega
        have ht'f : ((c :: rest).drop (S - O)).length ≤ fuel := by
          rw [ht'len]
          simp at hf ⊢
          omega
        rw [List.length_append, ih _ ht'ne ht'f, ht'len]
        have hmax1 : max ((c :: rest).length - (S - O) - O) 1
            = (c :: rest).length - S := by
          simp at hle
          simp
          omega
        have hmax2 : max ((c :: rest).length - O) 1 = (c :: rest).length - O := by
          simp at hle
          simp
          omega
        rw [hmax1, hmax2]
        have hsplit : (c :: rest).length - O = ((c :: rest).length - S) + (S - O) := by
          simp at hle ⊢
          omega
        rw [hsplit, cdiv_add_right (by omega)]
        simp only [List.length_cons, List.length_nil]
        omega

/-- Every chunk the loop pushes is nonempty and no longer than the window. -/
lemma overlapChunks_mem {S O : Nat} (hS : 0 < S) :
    ∀ fuel (t : List Char) (p : List Char), p ∈ overlapChunks S O fuel t →
      p ≠ [] ∧ p.length ≤ S := by
  intro fuel
  induction fuel with
  | zero =>
    intro t p hp
    simp [overlapChunks] at hp
  | succ fuel ih =>
    intro t p hp
    match t with
    | [] => simp [overlapChunks] at hp
    | c :: rest =>
      simp only [overlapChunks, take_cons_isEmpty hS, Bool.false_eq_true, if_false] at hp
      have hpiece : (c :: rest).take S ≠ [] ∧ ((c :: rest).take S).length ≤ S := by
        constructor
        · intro h
          have := take_cons_isEmpty hS c rest
          rw [h] at this
          simp at this
        · simp
      by_cases hle : (c :: rest).length ≤ S
      · rw [if_pos hle] at hp
        rcases List.mem_singleton.mp hp with rfl
        exact hpiece
      · rw [if_neg hle] at hp
        rcases List.mem_append.mp hp with hp | hp
        · rcases List.mem_singleton.mp hp with rfl
          exact hpiece
        · exact ih _ p hp

/-! ### Assembly lemmas for chunkText -/

lemma isEmpty_false_of_ne_nil {l : List Char} (h : l ≠ []) : l.isEmpty = false := by
  cases l with
  | nil => exact absurd rfl h
  | cons a t => rfl

lemma deOverlap_zero (ms : List (List Char)) : deOverlap 0 ms = ms.flatten := by
  cases ms with
  | nil => rfl
  | cons c cs =>
    have h : List.drop (α := Char) 0 = id := funext fun l => List.drop_zero l
    simp [deOverlap, h]

/-- Claim C1, counterexample: the regex path of chunkText silently discards
line terminators (the atom "." does not match them), so for the text "a\nb"
with windowSize 10 and overlap 0 the chunks are ["a", "b"] and de-overlapped
concatenation gives "ab", not the original text. -/
theorem chunkText_roundtrip_cex :
    deOverlap 0 (chunkText ('a' :: '\n' :: 'b' :: []) 10 0) ≠
      ('a' :: '\n' :: 'b' :: []) := by decide

/-- Claim C1 (amended): for every text containing no line terminator, every
windowSize S > 0 and overlap O with O < S, dropping the first O code points of
every chunk but the first and concatenating the chunks of chunkText in
emission order yields exactly the original text. -/
theorem chunkText_roundtrip (l : List Char) (S O : Nat) (hS : 0 < S) (hO : O < S)
    (hfree : ∀ c ∈ l, isLineTerm c = false) :
    deOverlap O (chunkText l S O) = l := by
  by_cases hne : l = []
  · subst hne
    rfl
  · have hisE : l.isEmpty = false := isEmpty_false_of_ne_nil hne
    simp only [chunkText, hisE, Bool.false_eq_true, if_false]
    by_cases hO0 : O = 0
    · subst hO0
      rw [if_pos (by simp)]
      rw [deOverlap_zero]
      exact regexGo_flatten S l.length l (le_refl _) hfree
    · by_cases hms1 : (regexMatches S l).length = 1
      · rw [if_pos (by simp [hms1])]
        obtain ⟨m, hm⟩ := List.length_eq_one.mp hms1
        have hfl := regexGo_flatten S l.length l (le_refl _) hfree
        rw [show regexGo S l.length l = regexMatches S l from rfl, hm] at hfl
        simp at hfl
        rw [hm, hfl]
        simp [deOverlap]
      · rw [if_neg (by simp [hO0, hms1])]
        obtain ⟨cs, hcs⟩ :=
          overlapChunks_cons (O := O) hS l.length l hne
            (by have := List.length_pos.mpr hne; omega)
        rw [hcs]
        simp only [List.isEmpty_cons, Bool.false_eq_true, if_false]
        have hG := overlapChunks_take_flatten hO l.length l hne (le_refl _)
        rw [hcs] at hG
        simp only [List.map_cons, List.flatten_cons] at hG
        have h1 : l.take O ++ (l.take S).drop O = l.take S := by
          have h2 : (l.take S).take O = l.take O := by
            rw [List.take_take, Nat.min_eq_left (by omega)]
          conv_rhs => rw [← List.take_append_drop O (l.take S)]
          rw [h2]
        show l.take S ++ ((cs.map (List.drop O)).flatten) = l
        rw [← h1, List.append_assoc]
        exact hG

/-- Claim C1 witness: the amended round-trip at the concrete input "abcd",
windowSize 3, overlap 1. -/
theorem chunkText_roundtrip_inst :
    deOverlap 1 (chunkText ('a' :: 'b' :: 'c' :: 'd' :: []) 3 1) =
      ('a' :: 'b' :: 'c' :: 'd' :: []) :=
  chunkText_roundtrip _ 3 1 (by decide) (by decide) (by decide)

/-- Claim C2, counterexample: for the text "a\nb" with windowSize 10 and
overlap 0 the code produces 2 chunks (the regex path splits at the discarded
line feed), while the formula of the claim gives ceil(3 / 10) = 1. -/
theorem chunkText_count_cex :
    ¬ ((chunkText ('a' :: '\n' :: 'b' :: []) 10 0).length = cdiv 3 10) := by decide

/-- Claim C2 (amended): for every text containing no line terminator and no
supplementary-plane code point (so that the length in code points equals the
length in UTF-16 code units, the measure the unflagged regex of line 17
actually counts), every windowSize S > 0 and overlap O with O < S, the chunk
count is 0 for empty text, ceil(L / S) when O = 0, and
ceil(max(L - O, 1) / (S - O)) when O > 0, with L the length of the text.  In
real JS a text of astral characters breaks the O = 0 case: a single U+1F600
with S = 1 yields 2 chunks (the two surrogate halves), not ceil(1/1) = 1. -/
theorem chunkText_count (l : List Char) (S O : Nat) (hS : 0 < S) (hO : O < S)
    (hfree : ∀ c ∈ l, isLineTerm c = false) (hbmp : ∀ c ∈ l, c.toNat < 0x10000) :
    (l = [] → chunkText l S O = []) ∧
    (l ≠ [] → O = 0 → (chunkText l S O).length = cdiv l.length S) ∧
    (l ≠ [] → 0 < O → (chunkText l S O).length = cdiv (max (l.length - O) 1) (S - O)) := by
  refine ⟨?_, ?_, ?_⟩
  · intro h
    subst h
    rfl
  · intro hne h0
    subst h0
    have hisE : l.isEmpty = false := isEmpty_false_of_ne_nil hne
    simp only [chunkText, hisE, Bool.false_eq_true, if_false]
    rw [if_pos (by simp)]
    exact regexGo_length S hS l.length l (le_refl _) hfree
  · intro hne hOpos
    have hisE : l.isEmpty = false := isEmpty_false_of_ne_nil hne
    have hlpos : 0 < l.length := List.length_pos.mpr hne
    simp only [chunkText, hisE, Bool.false_eq_true, if_false]
    by_cases hms1 : (regexMatches S l).length = 1
    · rw [if_pos (by simp [hms1])]
      rw [hms1]
      have hlenS : l.length ≤ S := by
        apply le_of_cdiv_eq_one hS
        rw [← regexGo_length S hS l.length l (le_refl _) hfree]
        exact hms1
      rw [cdiv_eq_one (Nat.le_max_right _ _) (Nat.max_le.mpr ⟨by omega, by omega⟩)]
    · rw [if_neg (by simp [hms1]; omega)]
      obtain ⟨cs, hcs⟩ :=
        overlapChunks_cons (O := O) hS l.length l hne (by omega)
      rw [hcs]
      simp only [List.isEmpty_cons, Bool.false_eq_true, if_false]
      rw [← hcs]
      exact overlapChunks_length hO l.length l hne (le_refl _)

/-- Claim C2 witness: the amended count formula at the concrete input "abcd",
windowSize 3, overlap 1 (both sides equal 2). -/
theorem chunkText_count_inst :
    (chunkText ('a' :: 'b' :: 'c' :: 'd' :: []) 3 1).length =
      cdiv (max ((('a' :: 'b' :: 'c' :: 'd' :: []) : List Char).length - 1) 1) (3 - 1) :=
  (chunkText_count _ 3 1 (by decide) (by decide) (by decide) (by decide)).2.2
    (by decide) (by decide)

/-- Claim C4, counterexample: for the text "a\nb" and windowSize 10 (larger
than the text) with overlap 0, chunkText returns ["a", "b"], not one chunk
equal to the full text. -/
theorem chunkText_single_cex :
    ¬ (chunkText ('a' :: '\n' :: 'b' :: []) 10 0 = [('a' :: '\n' :: 'b' :: [])]) := by
  decide

/-- Claim C4 (amended): for every nonempty text containing no line terminator
and no supplementary-plane code point, and every valid configuration with
windowSize larger than the text length (in code points, which under the BMP
restriction equals the UTF-16 code-unit length the regex of line 17 actually
measures), chunkText returns exactly one chunk, the full text.  In real JS
astral characters break this: two U+1F600 with S = 3 and O = 0 occupy 4 code
units, so the regex path returns 2 chunks, neither the full text. -/
theorem chunkText_single (l : List Char) (S O : Nat) (hS : 0 < S) (hO : O < S)
    (hne : l ≠ []) (hfree : ∀ c ∈ l, isLineTerm c = false)
    (hbmp : ∀ c ∈ l, c.toNat < 0x10000) (hlen : l.length < S) :
    chunkText l S O = [l] := by
  have hisE : l.isEmpty = false := isEmpty_false_of_ne_nil hne
  have hms : regexMatches S l = [l] :=
    regexGo_single S l.length l (le_refl _) hfree hne (by omega)
  simp only [chunkText, hisE, Bool.false_eq_true, if_false]
  rw [if_pos (by simp [hms])]
  exact hms

/-- Claim C4 witness: the amended single-chunk property at the concrete input
"ab", windowSize 3, overlap 1. -/
theorem chunkText_single_inst :
    chunkText ('a' :: 'b' :: []) 3 1 = [('a' :: 'b' :: [])] :=
  chunkText_single _ 3 1 (by decide) (by decide) (by decide) (by decide) (by decide)
    (by decide)

/-- Claim C9: for any text and any valid configuration (S > 0, O < S), every
chunk emitted by chunkText is nonempty and at most S code points long. -/
theorem chunkText_chunk_bounds (l : List Char) (S O : Nat) (hS : 0 < S) (hO : O < S) :
    ∀ p ∈ chunkText l S O, p ≠ [] ∧ p.length ≤ S := by
  intro p hp
  by_cases hne : l = []
  · subst hne
    simp [chunkText] at hp
  · have hisE : l.isEmpty = false := isEmpty_false_of_ne_nil hne
    simp only [chunkText, hisE, Bool.false_eq_true, if_false] at hp
    by_cases hcond : (decide (O = 0) || decide ((regexMatches S l).length = 1)) = true
    · rw [if_pos hcond] at hp
      exact regexGo_mem S hS l.length l p hp
    · rw [if_neg hcond] at hp
      by_cases hie : (overlapChunks S O l.length l).isEmpty = true
      · rw [if_pos hie] at hp
        exact regexGo_mem S hS l.length l p hp
      · rw [if_neg hie] at hp
        exact overlapChunks_mem hS l.length l p hp

/-- Claim C9 witness: chunkText "abcd" with windowSize 3 and overlap 1 emits
the chunk "abc", which is nonempty and within the bound. -/
theorem chunkText_chunk_bounds_inst :
    ('a' :: 'b' :: 'c' :: []) ≠ ([] : List Char) ∧
      (('a' :: 'b' :: 'c' :: []) : List Char).length ≤ 3 :=
  chunkText_chunk_bounds ('a' :: 'b' :: 'c' :: 'd' :: []) 3 1 (by decide) (by decide)
    ('a' :: 'b' :: 'c' :: []) (by decide)

/-- Claim C3, counterexample: the claim says chunk(text, 10, 10) raises an
InvalidArgument-class error for any text, failing fast with no output.  On
"abc" the code instead returns normally with the chunk list ["abc"] (the text
forms a single regex match, so the loop with its non-advancing step is never
reached). -/
theorem chunkText_invalid_config_cex :
    chunkTextE ('a' :: 'b' :: 'c' :: []) 10 10 =
      some (Except.ok [('a' :: 'b' :: 'c' :: [])]) := rfl

/-- Claim C3 (amended): chunkText validates nothing and no InvalidArgument
error exists.  Empty (or falsy non-string) text returns the empty chunk list
with no error; chunk(text, 0, 0) on nonempty text throws only because the
RegExp constructor rejects the quantifier; and chunk(text, 10, 10) never
raises: on line-terminator-free text that fits one window it returns that
single chunk, on longer such text the loop never terminates. -/
theorem chunkTextE_no_validation :
    (∀ S O : Nat, chunkTextE [] S O = some (Except.ok [])) ∧
    (∀ l : List Char, l ≠ [] → (∀ c ∈ l, isLineTerm c = false) →
      chunkTextE l 0 0 = some (Except.error JsError.invalidRegExp) ∧
      (l.length ≤ 10 → chunkTextE l 10 10 = some (Except.ok [l])) ∧
      (10 < l.length → chunkTextE l 10 10 = none)) := by
  constructor
  · intro S O
    rfl
  · intro l hne hfree
    have hisE : l.isEmpty = false := isEmpty_false_of_ne_nil hne
    refine ⟨?_, ?_, ?_⟩
    · simp only [chunkTextE, hisE, Bool.false_eq_true, if_false]
      simp
    · intro hlen
      have hms : regexMatches 10 l = [l] :=
        regexGo_single 10 l.length l (le_refl _) hfree hne hlen
      simp only [chunkTextE, hisE, Bool.false_eq_true, if_false]
      rw [if_neg (by omega), if_pos (by simp [hms]), hms]
    · intro hlen
      have hmslen : (regexMatches 10 l).length = cdiv l.length 10 :=
        regexGo_length 10 (by omega) l.length l (le_refl _) hfree
      have hms1 : ¬ ((regexMatches 10 l).length = 1) := by
        rw [hmslen]
        intro h
        have := le_of_cdiv_eq_one (by omega) h
        omega
      simp only [chunkTextE, hisE, Bool.false_eq_true, if_false]
      rw [if_neg (by omega), if_neg (by simp [hms1]), if_neg (by omega),
        if_neg (by omega)]

/-- Claim C3 witness: the amended behavior at the concrete text "abc". -/
theorem chunkTextE_no_validation_inst :
    chunkTextE ('a' :: 'b' :: 'c' :: []) 0 0 =
        some (Except.error JsError.invalidRegExp) ∧
      chunkTextE ('a' :: 'b' :: 'c' :: []) 10 10 =
        some (Except.ok [('a' :: 'b' :: 'c' :: [])]) :=
  ⟨(chunkTextE_no_validation.2 _ (by decide) (by decide)).1,
    (chunkTextE_no_validation.2 _ (by decide) (by decide)).2.1 (by decide)⟩

/-! ### chunkDocuments: indices and ids -/

lemma chunkRecords_map_idx (docId : String) :
    ∀ (cs : List (List Char)) (i : Nat),
      (chunkRecords docId i cs).map ChunkRec.chunkIdx = List.range' i cs.length := by
  intro cs
  induction cs with
  | nil => intro i; rfl
  | cons c cs ih =>
    intro i
    simp only [chunkRecords, List.map_cons, List.length_cons, List.range'_succ, ih]

lemma chunkRecords_mem (docId : String) :
    ∀ (cs : List (List Char)) (i : Nat) (r : ChunkRec), r ∈ chunkRecords docId i cs →
      r.id = docId ++ "_" ++ toString r.chunkIdx ∧ r.sourceDoc = docId := by
  intro cs
  induction cs with
  | nil =>
    intro i r hr
    simp [chunkRecords] at hr
  | cons c cs ih =>
    intro i r hr
    rcases List.mem_cons.mp hr with rfl | hr
    · exact ⟨rfl, rfl⟩
    · exact ih _ r hr

set_option maxRecDepth 40000 in
/-- Claim C5: chunkDocuments emits records in document order then chunk order;
for each document the chunkIdx values are exactly 0, 1, 2, ... in emission
order, each record's id is the document id, an underscore, and the chunk
index, and its sourceDoc is the document id; and on the concrete input of one
document "a" holding 700 copies of "X" (with the configured windowSize 300 and
overlap 30) the emitted ids are a_0, a_1, a_2 with indices 0, 1, 2. -/
theorem chunkDocuments_contiguity :
    (∀ docs : List Document,
      chunkDocuments docs = docs.flatMap fun d => chunkDocuments [d]) ∧
    (∀ d : Document, (chunkDocuments [d]).map ChunkRec.chunkIdx =
      List.range (chunkText d.content).length) ∧
    (∀ d : Document, ∀ r ∈ chunkDocuments [d],
      r.id = d.id ++ "_" ++ toString r.chunkIdx ∧ r.sourceDoc = d.id) ∧
    ((chunkDocuments [⟨"a", List.replicate 700 'X'⟩]).map (fun r => (r.id, r.chunkIdx)) =
      [("a_0", 0), ("a_1", 1), ("a_2", 2)]) := by
  have hsingle : ∀ d : Document,
      chunkDocuments [d] = chunkRecords d.id 0 (chunkText d.content) := by
    intro d
    simp [chunkDocuments]
  refine ⟨?_, ?_, ?_, ?_⟩
  · intro docs
    simp [chunkDocuments]
  · intro d
    rw [hsingle, chunkRecords_map_idx, List.range_eq_range']
  · intro d r hr
    rw [hsingle] at hr
    exact chunkRecords_mem d.id _ 0 r hr
  · rfl

/-- Claim C5 witness: the id/sourceDoc shape applied to the single record
produced for a one-chunk document. -/
theorem chunkDocuments_contiguity_inst :
    (⟨"a_0", ('x' :: []), "a", 0⟩ : ChunkRec).id =
        "a" ++ "_" ++ toString (⟨"a_0", ('x' :: []), "a", 0⟩ : ChunkRec).chunkIdx ∧
      (⟨"a_0", ('x' :: []), "a", 0⟩ : ChunkRec).sourceDoc = "a" :=
  chunkDocuments_contiguity.2.2.1 ⟨"a", ('x' :: [])⟩ _ (by decide)

/-! ### formatContext: the template -/

lemma formatBlocks_get? :
    ∀ (ds : List RetrievedDoc) (i j : Nat) (d : RetrievedDoc), ds.get? j = some d →
      (formatBlocks i ds).get? j = some (contextBlock (i + j) d) := by
  intro ds
  induction ds with
  | nil =>
    intro i j d h
    simp at h
  | cons a ds ih =>
    intro i j d h
    cases j with
    | zero =>
      simp at h
      subst h
      rfl
    | succ j =>
      have hj := ih (i + 1) j d (by simpa using h)
      simpa [formatBlocks, Nat.add_assoc, Nat.add_comm 1 j] using hj

/-- Claim C6: formatContext renders the item at (0-based) position j as the
block for 1-based position j+1, joins the blocks with a blank line, returns
the empty string on the empty sequence, renders the concrete single-item
example exactly, and renders a missing source document id as "unknown". -/
theorem formatContext_template :
    (∀ (docs : List RetrievedDoc) (j : Nat) (d : RetrievedDoc), docs.get? j = some d →
      (formatBlocks 0 docs).get? j = some (contextBlock j d)) ∧
    (∀ docs : List RetrievedDoc,
      formatContext docs = String.intercalate ("\n\n") (formatBlocks 0 docs)) ∧
    (formatContext [] = "") ∧
    (formatContext [⟨"hi", some ("d1")⟩] = "[Document 1]\nhi\n[Source: d1]") ∧
    (∀ d : RetrievedDoc, d.sourceDoc = none → sourceLabel d = "unknown") ∧
    (formatContext [⟨"x", none⟩] = "[Document 1]\nx\n[Source: unknown]") := by
  refine ⟨?_, fun docs => rfl, rfl, rfl, ?_, rfl⟩
  · intro docs j d h
    simpa using formatBlocks_get? docs 0 j d h
  · intro d hd
    simp [sourceLabel, hd]

/-- Claim C6 witness: the per-position template and the unknown-source
rendering at concrete inputs. -/
theorem formatContext_template_inst :
    (formatBlocks 0 [⟨"hi", some ("d1")⟩]).get? 0 =
        some (contextBlock 0 ⟨"hi", some ("d1")⟩) ∧
      sourceLabel ⟨"x", none⟩ = "unknown" :=
  ⟨formatContext_template.1 [⟨"hi", some ("d1")⟩] 0 _ rfl,
    formatContext_template.2.2.2.2.1 ⟨"x", none⟩ rfl⟩

/-! ### buildRAGPrompt: the template -/

set_option maxRecDepth 40000 in
/-- Claim C7: for every query Q and context C, the prompt contains the literal
text "Question: " immediately followed by Q, contains C inside the context
section, and ends with the generation cue "Answer:". -/
theorem buildRAGPrompt_template (q c : String) :
    (("Question: " ++ q).data <:+: (buildRAGPrompt q c).data) ∧
    (c.data <:+: (buildRAGPrompt q c).data) ∧
    ("Answer:".data <:+ (buildRAGPrompt q c).data) := by
  have e : (buildRAGPrompt q c).data =
      ("You are a helpful assistant. Use the following context to answer the user\x27s question. If you don\x27t know the answer based on the context, say so.\n\nContext:\n" : String).data ++
        (c.data ++ (("\n\nQuestion: " : String).data ++
          (q.data ++ ("\n\nAnswer:" : String).data))) := by
    simp [buildRAGPrompt, String.data_append]
  have hq : ("\n\nQuestion: " : String).data =
      ("\n\n" : String).data ++ ("Question: " : String).data := rfl
  have ha : ("\n\nAnswer:" : String).data =
      ("\n\n" : String).data ++ ("Answer:" : String).data := rfl
  refine ⟨?_, ?_, ?_⟩
  · refine ⟨("You are a helpful assistant. Use the following context to answer the user\x27s question. If you don\x27t know the answer based on the context, say so.\n\nContext:\n" : String).data ++
        c.data ++ ("\n\n" : String).data,
      ("\n\nAnswer:" : String).data, ?_⟩
    simp [e, hq, String.data_append]
  · refine ⟨("You are a helpful assistant. Use the following context to answer the user\x27s question. If you don\x27t know the answer based on the context, say so.\n\nContext:\n" : String).data,
      ("\n\nQuestion: " : String).data ++ (q.data ++ ("\n\nAnswer:" : String).data), ?_⟩
    simp [e, String.data_append]
  · refine ⟨("You are a helpful assistant. Use the following context to answer the user\x27s question. If you don\x27t know the answer based on the context, say so.\n\nContext:\n" : String).data ++
      c.data ++ ("\n\nQuestion: " : String).data ++ q.data ++ ("\n\n" : String).data, ?_⟩
    simp [e, ha, String.data_append]

/-! ### cleanText: whitespace collapsing, idempotence -/

lemma replWsGo_mem :
    ∀ (l : List Char) (b : Bool) (c : Char), c ∈ replWsGo b l → isWs c = true → c = ' ' := by
  intro l
  induction l with
  | nil =>
    intro b c hc
    simp [replWsGo] at hc
  | cons a rest ih =>
    intro b c hc hws
    by_cases ha : isWs a = true
    · cases b with
      | true =>
        simp only [replWsGo, ha, if_true] at hc
        exact ih true c hc hws
      | false =>
        simp only [replWsGo, ha, if_true] at hc
        rcases List.mem_cons.mp hc with rfl | hc
        · rfl
        · exact ih true c hc hws
    · simp only [replWsGo, ha, Bool.false_eq_true, if_false] at hc
      rcases List.mem_cons.mp hc with rfl | hc
      · exact absurd hws (by simp [ha])
      · exact ih false c hc hws

lemma replWsGo_true_head :
    ∀ (l : List Char) (c : Char), (replWsGo true l).head? = some c → isWs c = false := by
  intro l
  induction l with
  | nil =>
    intro c hc
    simp [replWsGo] at hc
  | cons a rest ih =>
    intro c hc
    by_cases ha : isWs a = true
    · simp only [replWsGo, ha, if_true] at hc
      exact ih c hc
    · simp only [replWsGo, ha, Bool.false_eq_true, if_false, List.head?_cons,
        Option.some_inj] at hc
      subst hc
      simp [ha]

lemma replWsGo_chain :
    ∀ (l : List Char) (b : Bool),
      List.Chain' (fun x y => ¬(isWs x = true ∧ isWs y = true)) (replWsGo b l) := by
  intro l
  induction l with
  | nil =>
    intro b
    simp [replWsGo]
  | cons a rest ih =>
    intro b
    by_cases ha : isWs a = true
    · cases b with
      | true =>
        simp only [replWsGo, ha, if_true]
        exact ih true
      | false =>
        simp only [replWsGo, ha, if_true]
        refine List.chain'_cons'.mpr ⟨?_, ih true⟩
        intro y hy
        have := replWsGo_true_head rest y hy
        simp [this]
    · simp only [replWsGo, ha, Bool.false_eq_true, if_false]
      refine List.chain'_cons'.mpr ⟨?_, ih false⟩
      intro y hy
      simp [ha]

lemma replWsGo_true_eq_false_of_head (rest : List Char)
    (h : ∀ c, rest.head? = some c → isWs c = false) :
    replWsGo true rest = replWsGo false rest := by
  cases rest with
  | nil => rfl
  | cons d r =>
    have hd : isWs d = false := h d rfl
    simp [replWsGo, hd]

lemma replWsGo_canon :
    ∀ l : List Char, (∀ c ∈ l, isWs c = true → c = ' ') →
      List.Chain' (fun x y => ¬(isWs x = true ∧ isWs y = true)) l →
      replWsGo false l = l := by
  intro l
  induction l with
  | nil => intro _ _; rfl
  | cons a rest ih =>
    intro hmem hch
    by_cases ha : isWs a = true
    · have ha' : a = ' ' := hmem a (by simp) ha
      simp only [replWsGo, ha, if_true, Bool.false_eq_true, if_false]
      have hhd : ∀ c, rest.head? = some c → isWs c = false := by
        intro c hc
        have := List.chain'_cons'.mp hch
        have h2 := this.1 c hc
        by_contra hcw
        exact h2 ⟨ha, by simpa using hcw⟩
      rw [replWsGo_true_eq_false_of_head rest hhd,
        ih (fun c hc hw => hmem c (by simp [hc]) hw) (List.chain'_cons'.mp hch).2, ha']
    · simp only [replWsGo, ha, Bool.false_eq_true, if_false]
      rw [ih (fun c hc hw => hmem c (by simp [hc]) hw) (List.chain'_cons'.mp hch).2]

lemma replNlGo_id :
    ∀ (fuel : Nat) (l : List Char), l.length ≤ fuel → (∀ c ∈ l, ¬(c = '\n')) →
      replNlGo fuel l = l := by
  intro fuel
  induction fuel with
  | zero =>
    intro l hl _
    have : l = [] := List.eq_nil_of_length_eq_zero (by omega)
    subst this
    rfl
  | succ fuel ih =>
    intro l hl hno
    match l with
    | [] => rfl
    | c :: rest =>
      have hc : ¬(c = '\n') := hno c (by simp)
      simp only [replNlGo, if_neg hc]
      rw [ih rest (by simp at hl; omega) (fun x hx => hno x (by simp [hx]))]

lemma trimBoth_subset (l : List Char) : ∀ c ∈ trimBoth l, c ∈ l := by
  intro c hc
  simp only [trimBoth, List.mem_reverse] at hc
  have h1 := (List.dropWhile_sublist (l := (l.dropWhile isWs).reverse) isWs).subset hc
  simp only [List.mem_reverse] at h1
  exact (List.dropWhile_sublist (l := l) isWs).subset h1

lemma chain'_dropWhile {P : Char → Char → Prop} {l : List Char} (p : Char → Bool)
    (h : List.Chain' P l) : List.Chain' P (l.dropWhile p) := by
  obtain ⟨s, hs⟩ := List.dropWhile_suffix (l := l) p
  rw [← hs] at h
  exact h.right_of_append

lemma chain'_reverse_symm {l : List Char}
    (h : List.Chain' (fun x y => ¬(isWs x = true ∧ isWs y = true)) l) :
    List.Chain' (fun x y => ¬(isWs x = true ∧ isWs y = true)) l.reverse := by
  rw [List.chain'_reverse]
  exact h.imp fun a b hab => fun ⟨h1, h2⟩ => hab ⟨h2, h1⟩

lemma trimBoth_chain {l : List Char}
    (h : List.Chain' (fun x y => ¬(isWs x = true ∧ isWs y = true)) l) :
    List.Chain' (fun x y => ¬(isWs x = true ∧ isWs y = true)) (trimBoth l) := by
  exact chain'_reverse_symm (chain'_dropWhile isWs (chain'_reverse_symm
    (chain'_dropWhile isWs h)))

lemma head?_dropWhile_not (p : Char → Bool) (l : List Char) (c : Char)
    (h : (l.dropWhile p).head? = some c) : p c = false := by
  have hne : l.dropWhile p ≠ [] := by
    intro hh
    rw [hh] at h
    simp at h
  have h2 := List.head_dropWhile_not p l hne
  rw [List.head?_eq_head hne] at h
  have h3 : (l.dropWhile p).head hne = c := Option.some_inj.mp h
  rw [h3] at h2
  exact h2

lemma dropWhile_eq_self_of_head? (p : Char → Bool) (l : List Char)
    (h : ∀ c, l.head? = some c → p c = false) : l.dropWhile p = l := by
  cases l with
  | nil => rfl
  | cons a rest => simp [List.dropWhile_cons, h a rfl]

lemma trimBoth_starts_dropWhile (l : List Char) :
    trimBoth l <+: l.dropWhile isWs := by
  obtain ⟨s, hs⟩ := List.dropWhile_suffix (l := (l.dropWhile isWs).reverse) isWs
  refine ⟨s.reverse, ?_⟩
  have h2 := congrArg List.reverse hs
  simpa [trimBoth] using h2

lemma trimBoth_head?_not_ws (l : List Char) (c : Char)
    (h : (trimBoth l).head? = some c) : isWs c = false := by
  obtain ⟨t, ht⟩ := trimBoth_starts_dropWhile l
  have hne : trimBoth l ≠ [] := by
    intro hh
    rw [hh] at h
    simp at h
  have hhead : (l.dropWhile isWs).head? = some c := by
    rw [← ht]
    match hm : trimBoth l, hne with
    | a :: r, _ =>
      rw [hm] at h
      simpa using h
  exact head?_dropWhile_not isWs l c hhead

lemma trimBoth_getLast?_not_ws (l : List Char) (c : Char)
    (h : (trimBoth l).getLast? = some c) : isWs c = false := by
  unfold trimBoth at h
  rw [List.getLast?_reverse] at h
  exact head?_dropWhile_not isWs _ c h

lemma trimBoth_dropWhile (l : List Char) :
    (trimBoth l).dropWhile isWs = trimBoth l :=
  dropWhile_eq_self_of_head? isWs _ (trimBoth_head?_not_ws l)

lemma trimBoth_reverse_dropWhile (l : List Char) :
    (trimBoth l).reverse.dropWhile isWs = (trimBoth l).reverse := by
  apply dropWhile_eq_self_of_head? isWs
  intro c hc
  rw [List.head?_reverse] at hc
  exact trimBoth_getLast?_not_ws l c hc

lemma trimBoth_eq_self (l : List Char) (h1 : l.dropWhile isWs = l)
    (h2 : l.reverse.dropWhile isWs = l.reverse) : trimBoth l = l := by
  simp [trimBoth, h1, h2]

lemma cleanText_eq (l : List Char) : cleanText l = trimBoth (replWs l) := by
  by_cases h : l.isEmpty = true
  · have : l = [] := List.isEmpty_iff.mp h
    subst this
    rfl
  · have hno : ∀ c ∈ replWs l, ¬(c = '\n') := by
      intro c hc hcn
      subst hcn
      have := replWsGo_mem l false '\n' hc (by decide)
      exact absurd this (by decide)
    have hrn : replNl (replWs l) = replWs l := replNlGo_id _ _ (le_refl _) hno
    simp only [cleanText, h, Bool.false_eq_true, if_false, hrn]

/-- Claim C10: cleanText always produces a single trimmed line: every
whitespace code point in the output is a plain space (so in particular no line
feed survives), no two consecutive output code points are both whitespace, the
output is already trimmed on both ends, and the whole computation equals
whitespace-run collapsing followed by trimming (the blank-line pass of line
106 finds nothing left to do). -/
theorem cleanText_single_line (l : List Char) :
    (∀ c ∈ cleanText l, isWs c = true → c = ' ') ∧
    ('\n' ∉ cleanText l) ∧
    List.Chain' (fun a b => ¬(isWs a = true ∧ isWs b = true)) (cleanText l) ∧
    ((cleanText l).dropWhile isWs = cleanText l) ∧
    ((cleanText l).reverse.dropWhile isWs = (cleanText l).reverse) ∧
    (cleanText l = trimBoth (replWs l)) := by
  have he := cleanText_eq l
  have hmem : ∀ c ∈ cleanText l, isWs c = true → c = ' ' := by
    intro c hc hws
    rw [he] at hc
    exact replWsGo_mem l false c (trimBoth_subset _ c hc) hws
  refine ⟨hmem, ?_, ?_, ?_, ?_, he⟩
  · intro hc
    exact absurd (hmem '\n' hc (by decide)) (by decide)
  · rw [he]
    exact trimBoth_chain (replWsGo_chain l false)
  · rw [he]
    exact trimBoth_dropWhile _
  · rw [he]
    exact trimBoth_reverse_dropWhile _

/-- Claim C10 witness: trimmedness of the cleaned text at the concrete input
" a\n\nb ". -/
theorem cleanText_single_line_inst :
    (cleanText (' ' :: 'a' :: '\n' :: '\n' :: 'b' :: ' ' :: [])).dropWhile isWs =
      cleanText (' ' :: 'a' :: '\n' :: '\n' :: 'b' :: ' ' :: []) :=
  (cleanText_single_line _).2.2.2.1

/-- Claim C8: cleanText is idempotent, and empty input yields the empty
string.  (Totality on string input is immediate: cleanText is a function.) -/
theorem cleanText_idempotent :
    (∀ l : List Char, cleanText (cleanText l) = cleanText l) ∧ cleanText [] = [] := by
  refine ⟨?_, rfl⟩
  intro l
  by_cases hne : cleanText l = []
  · rw [hne]
    rfl
  · have hisE : (cleanText l).isEmpty = false := isEmpty_false_of_ne_nil hne
    have hmem : ∀ c ∈ cleanText l, isWs c = true → c = ' ' := by
      intro c hc hws
      rw [cleanText_eq] at hc
      exact replWsGo_mem l false c (trimBoth_subset _ c hc) hws
    have hchain : List.Chain' (fun x y => ¬(isWs x = true ∧ isWs y = true))
        (cleanText l) := by
      rw [cleanText_eq]
      exact trimBoth_chain (replWsGo_chain l false)
    have hrw : replWs (cleanText l) = cleanText l := replWsGo_canon _ hmem hchain
    have hno : ∀ c ∈ cleanText l, ¬(c = '\n') := by
      intro c hc hcn
      subst hcn
      exact absurd (hmem _ hc (by decide)) (by decide)
    have hrn : replNl (cleanText l) = cleanText l :=
      replNlGo_id _ _ (le_refl _) hno
    have h1 : (cleanText l).dropWhile isWs = cleanText l := by
      rw [cleanText_eq]
      exact trimBoth_dropWhile _
    have h2 : (cleanText l).reverse.dropWhile isWs = (cleanText l).reverse := by
      rw [cleanText_eq]
      exact trimBoth_reverse_dropWhile _
    have houter : ∀ m : List Char, m.isEmpty = false →
        cleanText m = trimBoth (replNl (replWs m)) := by
      intro m hm
      simp only [cleanText, hm, Bool.false_eq_true, if_false]
    calc cleanText (cleanText l)
        = trimBoth (replNl (replWs (cleanText l))) := houter _ hisE
      _ = cleanText l := by
          rw [hrw, hrn]
          exact trimBoth_eq_self _ h1 h2

